import Mathlib

/-!
Verification of the text-to-speech pipeline of the EPUB reader: a shallow
embedding of the text chunker, the WAV encoder, the rate-limited synthesis
client, the playback sequencer and the export assembler, together with
theorems checking the design specification's claims against it.

Strings are modelled as `List Char`; JavaScript string lengths, `trim`,
`split` and the sentence regex are modelled character by character.
-/

namespace EpubReader

/-- Whitespace test used to model the JavaScript whitespace class in
`trim()` and `\s` (space, tab, newline, carriage return). -/
def isWs (c : Char) : Bool := c.isWhitespace

/-- Model of JavaScript `String.prototype.trim`: removes leading and trailing
whitespace. -/
def jsTrim (l : List Char) : List Char :=
  ((l.dropWhile isWs).reverse.dropWhile isWs).reverse

/-- Splits a character list at every occurrence of the separator character.
Models `text.split(/\n+/)` of `chunkText`: splitting on a run of newlines
differs from splitting at each single newline only by extra empty pieces,
and the `filter` applied immediately after the split in `chunkText` removes
all blank pieces, so the composition is the same. -/
def splitOnChar (sep : Char) : List Char → List (List Char)
  | [] => [[]]
  | c :: cs =>
    if c = sep then [] :: splitOnChar sep cs
    else
      match splitOnChar sep cs with
      | [] => [[c]]
      | p :: ps => (c :: p) :: ps

/-- The non-blank paragraphs of the input:
`text.split(/\n+/).filter(p => p.trim().length > 0)` from `chunkText`. -/
def paragraphs (text : List Char) : List (List Char) :=
  (splitOnChar '\n' text).filter (fun p => jsTrim p != [])

/-- Terminal punctuation recognised by the sentence regex of `chunkText`. -/
def isTerm (c : Char) : Bool := c = '.' || c = '!' || c = '?'

/-- State of the left-to-right scan that models the global regex match
`para.match(/[^.!?]+[.!?]+/g)`: the matches already emitted, the pending
run of non-terminal characters, and the run of terminal characters that
follows it. -/
structure MatchState where
  out : List (List Char)
  pend : List Char
  punct : List Char
deriving DecidableEq

/-- One character of the scan modelling the sentence regex: terminal
characters with no pending non-terminal run are skipped (they belong to no
match); a non-terminal character arriving after terminal ones closes the
current match. -/
def matchStep (st : MatchState) (c : Char) : MatchState :=
  if isTerm c then
    if st.pend = [] then st
    else { st with punct := st.punct ++ [c] }
  else
    if st.punct = [] then { st with pend := st.pend ++ [c] }
    else { out := st.out ++ [st.pend ++ st.punct], pend := [c], punct := [] }

/-- Model of `para.match(/[^.!?]+[.!?]+/g)`: the list of matches in order,
`[]` when the regex matches nowhere (JavaScript returns `null`).  A trailing
run of non-terminal characters not followed by terminal punctuation belongs
to no match. -/
def matchSentences (l : List Char) : List (List Char) :=
  (fun st => if st.punct = [] then st.out else st.out ++ [st.pend ++ st.punct])
    (l.foldl matchStep ⟨[], [], []⟩)

/-- The sentence list an oversized paragraph is split into:
`para.match(/[^.!?]+[.!?]+/g) || [para]`. -/
def sentencesOf (p : List Char) : List (List Char) :=
  if matchSentences p = [] then [p] else matchSentences p

/-- Running state of `chunkText`: the chunks pushed so far and the running
buffer `currentChunk`. -/
structure ChunkState where
  chunks : List (List Char)
  cur : List Char
deriving DecidableEq

/-- Guarded push `if (currentChunk.trim()) chunks.push(currentChunk.trim())`
from `chunkText`. -/
def pushTrimmed (chunks : List (List Char)) (cur : List Char) : List (List Char) :=
  if jsTrim cur = [] then chunks else chunks ++ [jsTrim cur]

/-- One iteration of the inner sentence-packing loop of `chunkText`: flush
the buffer when appending the sentence would exceed the limit, otherwise
append it with a single-space separator. -/
def packSentence (maxLen : Nat) (st : ChunkState) (s : List Char) : ChunkState :=
  if maxLen < (st.cur ++ s).length then
    { chunks := pushTrimmed st.chunks st.cur, cur := s }
  else
    { chunks := st.chunks, cur := if st.cur = [] then s else st.cur ++ [' '] ++ s }

/-- One iteration of the paragraph loop of `chunkText`: append the paragraph
with a blank-line separator when it fits, otherwise flush the buffer and
either sentence-split the paragraph (when it alone exceeds the limit) or
start a fresh buffer with it. -/
def packPara (maxLen : Nat) (st : ChunkState) (p : List Char) : ChunkState :=
  if (st.cur ++ p).length ≤ maxLen then
    { chunks := st.chunks, cur := if st.cur = [] then p else st.cur ++ ['\n', '\n'] ++ p }
  else
    if maxLen < p.length then
      (sentencesOf p).foldl (packSentence maxLen)
        { chunks := pushTrimmed st.chunks st.cur, cur := [] }
    else
      { chunks := pushTrimmed st.chunks st.cur, cur := p }

/-- Model of `chunkText(text, maxLen)` from the reader (`types.ts`): split
the input into non-blank paragraphs, greedily pack them into chunks, and
split paragraphs that alone exceed the limit into sentences. -/
def chunkText (text : List Char) (maxLen : Nat) : List (List Char) :=
  (fun st => pushTrimmed st.chunks st.cur)
    ((paragraphs text).foldl (packPara maxLen) ⟨[], []⟩)

/-- The indivisible units of an input at a given limit: its non-blank
paragraphs together with the sentences of each paragraph that alone exceeds
the limit.  The specification's chunking bound allows a chunk to exceed the
limit only when it is (the trim of) one of these. -/
def chunkUnits (text : List Char) (maxLen : Nat) : List (List Char) :=
  paragraphs text ++
    ((paragraphs text).map (fun p => if maxLen < p.length then sentencesOf p else [])).flatten

/-- Removes every whitespace character.  Two texts carry the same non-blank
content in the same order exactly when their images under this map agree. -/
def removeWs (l : List Char) : List Char := l.filter (fun c => !(isWs c))

lemma jsTrim_length_le (l : List Char) : (jsTrim l).length ≤ l.length := by
  unfold jsTrim
  calc ((l.dropWhile isWs).reverse.dropWhile isWs).reverse.length
      = ((l.dropWhile isWs).reverse.dropWhile isWs).length := List.length_reverse _
    _ ≤ (l.dropWhile isWs).reverse.length := (List.dropWhile_sublist _).length_le
    _ = (l.dropWhile isWs).length := List.length_reverse _
    _ ≤ l.length := (List.dropWhile_sublist _).length_le

lemma removeWs_nil : removeWs [] = [] := rfl

lemma removeWs_cons (c : Char) (l : List Char) :
    removeWs (c :: l) = if isWs c then removeWs l else c :: removeWs l := by
  simp only [removeWs, List.filter_cons]
  by_cases h : isWs c <;> simp [h]

lemma removeWs_append (a b : List Char) : removeWs (a ++ b) = removeWs a ++ removeWs b :=
  List.filter_append a b

lemma removeWs_reverse (l : List Char) : removeWs l.reverse = (removeWs l).reverse := by
  induction l with
  | nil => rfl
  | cons c cs ih =>
    simp only [List.reverse_cons, removeWs_append, removeWs_cons, ih]
    by_cases h : isWs c <;> simp [h, removeWs]

lemma removeWs_dropWhile (l : List Char) : removeWs (l.dropWhile isWs) = removeWs l := by
  induction l with
  | nil => rfl
  | cons c cs ih =>
    by_cases h : isWs c
    · rw [List.dropWhile_cons_of_pos h, ih, removeWs_cons, if_pos h]
    · rw [List.dropWhile_cons_of_neg h]

lemma removeWs_jsTrim (l : List Char) : removeWs (jsTrim l) = removeWs l := by
  unfold jsTrim
  rw [removeWs_reverse, removeWs_dropWhile, removeWs_reverse, List.reverse_reverse,
    removeWs_dropWhile]

lemma removeWs_eq_nil_of_jsTrim (l : List Char) (h : jsTrim l = []) : removeWs l = [] := by
  have h2 := removeWs_jsTrim l
  rw [h] at h2
  exact h2.symm

lemma removeWs_space_cons (l : List Char) : removeWs (' ' :: l) = removeWs l := by
  rw [removeWs_cons, if_pos (by decide)]

lemma removeWs_nl_cons (l : List Char) : removeWs ('\n' :: l) = removeWs l := by
  rw [removeWs_cons, if_pos (by decide)]

lemma splitOnChar_ne_nil (sep : Char) (l : List Char) : splitOnChar sep l ≠ [] := by
  cases l with
  | nil => simp [splitOnChar]
  | cons c cs =>
    simp only [splitOnChar]
    split
    · simp
    · split <;> simp

lemma removeWs_flatten_splitOnChar (sep : Char) (hsep : isWs sep = true) (l : List Char) :
    removeWs (splitOnChar sep l).flatten = removeWs l := by
  induction l with
  | nil => rfl
  | cons c cs ih =>
    by_cases h : c = sep
    · subst h
      rw [show splitOnChar c (c :: cs) = [] :: splitOnChar c cs from by simp [splitOnChar]]
      rw [List.flatten_cons, List.nil_append, ih, removeWs_cons, if_pos hsep]
    · simp only [splitOnChar, if_neg h]
      cases hs : splitOnChar sep cs with
      | nil => exact absurd hs (splitOnChar_ne_nil sep cs)
      | cons p ps =>
        have hx : removeWs (p ++ ps.flatten) = removeWs cs := by
          have h2 := ih
          rw [hs] at h2
          simpa using h2
        simp only [List.flatten_cons, List.cons_append, removeWs_cons, hx]

lemma removeWs_flatten_filterBlank (ls : List (List Char)) :
    removeWs ((ls.filter (fun p => jsTrim p != [])).flatten) = removeWs ls.flatten := by
  induction ls with
  | nil => rfl
  | cons p ps ih =>
    by_cases h : jsTrim p = []
    · have h2 : (jsTrim p != []) = false := by simp [h]
      rw [List.filter_cons, h2]
      simp only [Bool.false_eq_true, if_false, List.flatten_cons, removeWs_append, ih,
        removeWs_eq_nil_of_jsTrim p h, List.nil_append]
    · have h2 : (jsTrim p != []) = true := by simp [h]
      rw [List.filter_cons, h2]
      simp only [if_true, List.flatten_cons, removeWs_append, ih]

lemma removeWs_flatten_paragraphs (text : List Char) :
    removeWs (paragraphs text).flatten = removeWs text := by
  unfold paragraphs
  rw [removeWs_flatten_filterBlank, removeWs_flatten_splitOnChar '\n' (by decide)]

lemma removeWs_flatten_pushTrimmed (chunks : List (List Char)) (cur : List Char) :
    removeWs (pushTrimmed chunks cur).flatten = removeWs chunks.flatten ++ removeWs cur := by
  unfold pushTrimmed
  by_cases h : jsTrim cur = []
  · rw [if_pos h, removeWs_eq_nil_of_jsTrim cur h, List.append_nil]
  · rw [if_neg h, List.flatten_append, removeWs_append]
    simp [removeWs_jsTrim]

lemma packSentence_fold_content (maxLen : Nat) (ss : List (List Char)) :
    ∀ st : ChunkState,
      removeWs (ss.foldl (packSentence maxLen) st).chunks.flatten
          ++ removeWs (ss.foldl (packSentence maxLen) st).cur
        = removeWs st.chunks.flatten ++ (removeWs st.cur ++ removeWs ss.flatten) := by
  induction ss with
  | nil => intro st; simp [removeWs_nil]
  | cons s rest ih =>
    intro st
    rw [List.foldl_cons, ih]
    unfold packSentence
    by_cases h : maxLen < (st.cur ++ s).length
    · simp only [if_pos h]
      simp [removeWs_flatten_pushTrimmed, removeWs_append, List.append_assoc]
    · simp only [if_neg h]
      by_cases hc : st.cur = []
      · simp only [if_pos hc, hc]
        simp [removeWs_append, removeWs_nil]
      · simp only [if_neg hc]
        simp [removeWs_append, removeWs_space_cons, List.append_assoc]

lemma packPara_fold_content (maxLen : Nat) (ps : List (List Char)) :
    ∀ st : ChunkState, (∀ p ∈ ps, maxLen < p.length → (sentencesOf p).flatten = p) →
      removeWs (ps.foldl (packPara maxLen) st).chunks.flatten
          ++ removeWs (ps.foldl (packPara maxLen) st).cur
        = removeWs st.chunks.flatten ++ (removeWs st.cur ++ removeWs ps.flatten) := by
  induction ps with
  | nil => intro st _; simp [removeWs_nil]
  | cons p rest ih =>
    intro st h
    rw [List.foldl_cons, ih _ (fun q hq => h q (List.mem_cons_of_mem p hq))]
    unfold packPara
    by_cases hfit : (st.cur ++ p).length ≤ maxLen
    · simp only [if_pos hfit]
      by_cases hc : st.cur = []
      · simp only [if_pos hc, hc]
        simp [removeWs_append, removeWs_nil]
      · simp only [if_neg hc]
        simp [removeWs_append, removeWs_nl_cons, List.append_assoc]
    · simp only [if_neg hfit]
      by_cases hbig : maxLen < p.length
      · simp only [if_pos hbig]
        rw [← List.append_assoc, packSentence_fold_content]
        have hp : (sentencesOf p).flatten = p := h p (List.mem_cons_self p rest) hbig
        simp [removeWs_flatten_pushTrimmed, removeWs_append, removeWs_nil, hp,
          List.append_assoc]
      · simp only [if_neg hbig]
        simp [removeWs_flatten_pushTrimmed, removeWs_append, List.append_assoc]

/-- C2 (counterexample).  The claim that concatenating all chunks (ignoring
inserted separators) reproduces the non-blank content of the input fails:
for the input `a.bc` with `maxLen = 3`, the paragraph exceeds the limit, the
sentence regex matches only `a.`, and the unterminated tail `bc` is dropped
from every chunk. -/
theorem chunkText_coverage_counterexample :
    removeWs (chunkText ['a', '.', 'b', 'c'] 3).flatten ≠ removeWs ['a', '.', 'b', 'c'] := by
  decide

/-- C2 (amended).  Concatenating the text of all chunks of
`chunkText text maxLen`, with whitespace (hence every separator the chunker
inserts) ignored, reproduces the non-blank content of the input in its
original order, provided every paragraph longer than `maxLen` is fully
covered by the sentence regex, i.e. its matches concatenate back to the
whole paragraph.  Without that proviso the unmatched part of such a
paragraph is lost, as the counterexample shows. -/
theorem chunkText_coverage_amended (text : List Char) (maxLen : Nat)
    (h : ∀ p ∈ paragraphs text, maxLen < p.length → (sentencesOf p).flatten = p) :
    removeWs (chunkText text maxLen).flatten = removeWs text := by
  unfold chunkText
  rw [removeWs_flatten_pushTrimmed, packPara_fold_content maxLen (paragraphs text) ⟨[], []⟩ h]
  simp [removeWs_nil, removeWs_flatten_paragraphs]

/-- C2 (amended) holds at a concrete input: chunking two short paragraphs
keeps exactly their non-blank content. -/
theorem chunkText_coverage_amended_witness :
    (∀ p ∈ paragraphs ['a', 'b', '\n', 'c'], 3 < p.length → (sentencesOf p).flatten = p) ∧
      removeWs (chunkText ['a', 'b', '\n', 'c'] 3).flatten = removeWs ['a', 'b', '\n', 'c'] :=
  ⟨by decide, chunkText_coverage_amended ['a', 'b', '\n', 'c'] 3 (by decide)⟩

/-- Invariant carried by the running buffer of `chunkText`: it is short
enough (limit plus the unchecked two-character separator) or it is a single
indivisible unit of the input. -/
def GoodCur (text : List Char) (maxLen : Nat) (cur : List Char) : Prop :=
  cur.length ≤ maxLen + 2 ∨ cur ∈ chunkUnits text maxLen

/-- Invariant satisfied by every emitted chunk: it is short enough (limit
plus the unchecked separator) or it is the trim of a single indivisible unit
that alone exceeds the limit. -/
def GoodChunk (text : List Char) (maxLen : Nat) (c : List Char) : Prop :=
  c.length ≤ maxLen + 2 ∨ ∃ u ∈ chunkUnits text maxLen, c = jsTrim u ∧ maxLen < u.length

lemma goodChunk_of_goodCur {text : List Char} {maxLen : Nat} {cur : List Char}
    (h : GoodCur text maxLen cur) : GoodChunk text maxLen (jsTrim cur) := by
  rcases h with h | h
  · exact Or.inl (le_trans (jsTrim_length_le cur) h)
  · by_cases hl : (jsTrim cur).length ≤ maxLen + 2
    · exact Or.inl hl
    · refine Or.inr ⟨cur, h, rfl, ?_⟩
      have := jsTrim_length_le cur
      omega

lemma pushTrimmed_good {text : List Char} {maxLen : Nat} {chunks : List (List Char)}
    {cur : List Char} (h1 : ∀ c ∈ chunks, GoodChunk text maxLen c)
    (h2 : GoodCur text maxLen cur) :
    ∀ c ∈ pushTrimmed chunks cur, GoodChunk text maxLen c := by
  intro c hc
  unfold pushTrimmed at hc
  by_cases h : jsTrim cur = []
  · rw [if_pos h] at hc
    exact h1 c hc
  · rw [if_neg h] at hc
    rcases List.mem_append.mp hc with hc | hc
    · exact h1 c hc
    · rw [List.mem_singleton.mp hc]
      exact goodChunk_of_goodCur h2

lemma packSentence_fold_good (text : List Char) (maxLen : Nat) (ss : List (List Char)) :
    ∀ st : ChunkState, (∀ s ∈ ss, s ∈ chunkUnits text maxLen) →
      (∀ c ∈ st.chunks, GoodChunk text maxLen c) → GoodCur text maxLen st.cur →
      (∀ c ∈ (ss.foldl (packSentence maxLen) st).chunks, GoodChunk text maxLen c) ∧
        GoodCur text maxLen (ss.foldl (packSentence maxLen) st).cur := by
  induction ss with
  | nil => intro st _ h1 h2; exact ⟨h1, h2⟩
  | cons s rest ih =>
    intro st hss h1 h2
    rw [List.foldl_cons]
    refine ih _ (fun x hx => hss x (List.mem_cons_of_mem s hx)) ?_ ?_
    · unfold packSentence
      by_cases h : maxLen < (st.cur ++ s).length
      · rw [if_pos h]
        exact pushTrimmed_good h1 h2
      · rw [if_neg h]
        exact h1
    · unfold packSentence
      by_cases h : maxLen < (st.cur ++ s).length
      · rw [if_pos h]
        exact Or.inr (hss s (List.mem_cons_self s rest))
      · rw [if_neg h]
        by_cases hc : st.cur = []
        · simp only [if_pos hc]
          left
          rw [hc] at h
          simp only [List.nil_append] at h
          omega
        · simp only [if_neg hc]
          left
          have hlen : (st.cur ++ [' '] ++ s).length = (st.cur ++ s).length + 1 := by
            simp [List.length_append]
            omega
          omega

lemma packPara_fold_good (text : List Char) (maxLen : Nat) (ps : List (List Char)) :
    ∀ st : ChunkState,
      (∀ p ∈ ps, maxLen < p.length → ∀ s ∈ sentencesOf p, s ∈ chunkUnits text maxLen) →
      (∀ c ∈ st.chunks, GoodChunk text maxLen c) → GoodCur text maxLen st.cur →
      (∀ c ∈ (ps.foldl (packPara maxLen) st).chunks, GoodChunk text maxLen c) ∧
        GoodCur text maxLen (ps.foldl (packPara maxLen) st).cur := by
  induction ps with
  | nil => intro st _ h1 h2; exact ⟨h1, h2⟩
  | cons p rest ih =>
    intro st hps h1 h2
    rw [List.foldl_cons]
    have hstep : (∀ c ∈ (packPara maxLen st p).chunks, GoodChunk text maxLen c) ∧
        GoodCur text maxLen (packPara maxLen st p).cur := by
      unfold packPara
      by_cases hfit : (st.cur ++ p).length ≤ maxLen
      · rw [if_pos hfit]
        refine ⟨h1, ?_⟩
        by_cases hc : st.cur = []
        · simp only [if_pos hc]
          left
          rw [hc] at hfit
          simp only [List.nil_append] at hfit
          omega
        · simp only [if_neg hc]
          left
          have hlen : (st.cur ++ ['\n', '\n'] ++ p).length = (st.cur ++ p).length + 2 := by
            simp [List.length_append]
            omega
          omega
      · rw [if_neg hfit]
        by_cases hbig : maxLen < p.length
        · rw [if_pos hbig]
          exact packSentence_fold_good text maxLen (sentencesOf p) _
            (hps p (List.mem_cons_self p rest) hbig)
            (pushTrimmed_good h1 h2) (Or.inl (by simp))
        · rw [if_neg hbig]
          refine ⟨pushTrimmed_good h1 h2, Or.inl ?_⟩
          show p.length ≤ maxLen + 2
          omega
    exact ih _ (fun q hq => hps q (List.mem_cons_of_mem p hq)) hstep.1 hstep.2

lemma sentencesOf_mem_chunkUnits (text : List Char) (maxLen : Nat) :
    ∀ p ∈ paragraphs text, maxLen < p.length →
      ∀ s ∈ sentencesOf p, s ∈ chunkUnits text maxLen := by
  intro p hp hbig s hs
  unfold chunkUnits
  refine List.mem_append.mpr (Or.inr ?_)
  refine List.mem_flatten.mpr ⟨sentencesOf p, ?_, hs⟩
  refine List.mem_map.mpr ⟨p, hp, ?_⟩
  rw [if_pos hbig]

/-- C1 (counterexample).  The claim that every chunk has length at most
`maxLen` unless it is a single oversized paragraph/sentence fails: for the
input `a` newline `b` with `maxLen = 3`, the greedy check ignores the
two-character blank-line separator it inserts, and the single produced
chunk has length 4 while both paragraphs have length 1. -/
theorem chunkText_bound_counterexample :
    ∃ c ∈ chunkText ['a', '\n', 'b'] 3, ¬ (c.length ≤ 3 ∨
      ∃ u ∈ chunkUnits ['a', '\n', 'b'] 3, c = jsTrim u ∧ 3 < u.length) := by
  decide

/-- C1 (amended).  Every chunk produced by `chunkText text maxLen` has
length at most `maxLen + 2` — the limit plus the blank-line separator whose
length the greedy check does not count — or else it is the trim of a single
paragraph or sentence of the input whose own length exceeds `maxLen` and
which was kept whole. -/
theorem chunkText_bound_amended (text : List Char) (maxLen : Nat) (c : List Char)
    (hc : c ∈ chunkText text maxLen) :
    c.length ≤ maxLen + 2 ∨
      ∃ u ∈ chunkUnits text maxLen, c = jsTrim u ∧ maxLen < u.length := by
  have hfold := packPara_fold_good text maxLen (paragraphs text) ⟨[], []⟩
    (sentencesOf_mem_chunkUnits text maxLen)
    (fun c hc => absurd hc (List.not_mem_nil c)) (Or.inl (by simp))
  unfold chunkText at hc
  exact pushTrimmed_good hfold.1 hfold.2 c hc

/-- C1 (amended) holds at a concrete input: the single chunk of a short
input respects the bound. -/
theorem chunkText_bound_amended_witness :
    (['a', 'b'] ∈ chunkText ['a', 'b'] 5) ∧
      ((['a', 'b'] : List Char).length ≤ 5 + 2 ∨
        ∃ u ∈ chunkUnits ['a', 'b'] 5, ['a', 'b'] = jsTrim u ∧ 5 < u.length) :=
  ⟨by decide, chunkText_bound_amended ['a', 'b'] 5 ['a', 'b'] (by decide)⟩

/-- Little-endian byte pair of a 16-bit field written with `setUint16`. -/
def u16LE (v : Nat) : List Nat := [v % 256, v / 256 % 256]

/-- Little-endian bytes of a 32-bit field written with `setUint32`; the
stored value is truncated modulo 2^32 as a `DataView` does. -/
def u32LE (v : Nat) : List Nat :=
  [v % 256, v / 256 % 256, v / 65536 % 256, v / 16777216 % 256]

/-- Little-endian bytes of one signed 16-bit sample written with `setInt16`:
the two's-complement value of the sample modulo 2^16. -/
def i16LE (s : Int) : List Nat := u16LE (s % 65536).toNat

/-- Bytes written by `writeString`: the code units of an ASCII tag. -/
def tagBytes (s : String) : List Nat := s.toList.map (fun c => c.toNat)

/-- The raw PCM bytes written sample by sample by the final loop of
`createWavBlob`. -/
def pcmBytes : List Int → List Nat
  | [] => []
  | s :: rest => i16LE s ++ pcmBytes rest

/-- Model of `createWavBlob(pcmData, sampleRate)` from the audio service:
a 44-byte RIFF/WAVE header followed by the raw little-endian int16 samples.
Each appended group below is one `DataView` write of the source, in offset
order (offsets 0, 4, 8, 12, 16, 20, 22, 24, 28, 32, 34, 36, 40, 44). -/
def createWavBlob (pcmData : List Int) (sampleRate : Nat) : List Nat :=
  tagBytes "RIFF" ++ u32LE (36 + pcmData.length * 2) ++ tagBytes "WAVE" ++
    tagBytes "fmt " ++ u32LE 16 ++ u16LE 1 ++ u16LE 1 ++ u32LE sampleRate ++
    u32LE (sampleRate * 2) ++ u16LE 2 ++ u16LE 16 ++ tagBytes "data" ++
    u32LE (pcmData.length * 2) ++ pcmBytes pcmData

/-- Little-endian unsigned 32-bit read at a byte offset, for parsing header
fields back. -/
def readU32LE (bytes : List Nat) (off : Nat) : Nat :=
  bytes.getD off 0 + 256 * bytes.getD (off + 1) 0 + 65536 * bytes.getD (off + 2) 0 +
    16777216 * bytes.getD (off + 3) 0

/-- Modelled from the spec: parser for the WAV header layout table of the
design document (there is no parser in the source; the specification's
round-trip law reads the header back).  Checks the four tag fields and
returns the sample-rate field at offset 24 and the data-chunk size field at
offset 40. -/
def parseWavHeader (bytes : List Nat) : Option (Nat × Nat) :=
  if bytes.take 4 = tagBytes "RIFF" ∧ (bytes.drop 8).take 4 = tagBytes "WAVE" ∧
      (bytes.drop 12).take 4 = tagBytes "fmt " ∧ (bytes.drop 36).take 4 = tagBytes "data" then
    some (readU32LE bytes 24, readU32LE bytes 40)
  else
    none

lemma pcmBytes_length (l : List Int) : (pcmBytes l).length = 2 * l.length := by
  induction l with
  | nil => rfl
  | cons s rest ih =>
    simp [pcmBytes, i16LE, u16LE, ih]
    omega

lemma u32LE_decode (v : Nat) (h : v < 4294967296) :
    v % 256 + 256 * (v / 256 % 256) + 65536 * (v / 65536 % 256) +
      16777216 * (v / 16777216 % 256) = v := by
  omega

/-- C3 (counterexample).  The round-trip claim fails for a sample rate that
does not fit the 32-bit header field: `setUint32` truncates modulo 2^32, so
encoding an empty sample list at rate 2^32 parses back as rate 0. -/
theorem createWavBlob_roundtrip_counterexample :
    parseWavHeader (createWavBlob [] 4294967296) ≠ some (4294967296, 2 * ([] : List Int).length) := by
  decide

set_option maxHeartbeats 2000000 in
/-- C3 (amended).  For every int16 sample list and every sample rate, the
encoded buffer has byte length exactly `44 + 2N`; and whenever the sample
rate and the data byte count `2N` fit their 32-bit header fields, parsing
the header back yields exactly the sample rate and `2N`.  In particular
`createWavBlob [0, 100, -100] 24000` has byte length 50, header sample rate
24000 and data-chunk size 6 (see the witness). -/
theorem createWavBlob_roundtrip (pcmData : List Int) (sampleRate : Nat) :
    (createWavBlob pcmData sampleRate).length = 44 + 2 * pcmData.length ∧
      (sampleRate < 4294967296 → pcmData.length * 2 < 4294967296 →
        parseWavHeader (createWavBlob pcmData sampleRate) =
          some (sampleRate, pcmData.length * 2)) := by
  constructor
  · simp [createWavBlob, tagBytes, u32LE, u16LE, pcmBytes_length]
    omega
  · intro hr hn
    have hparse : parseWavHeader (createWavBlob pcmData sampleRate) =
        some (sampleRate % 256 + 256 * (sampleRate / 256 % 256) +
            65536 * (sampleRate / 65536 % 256) + 16777216 * (sampleRate / 16777216 % 256),
          pcmData.length * 2 % 256 + 256 * (pcmData.length * 2 / 256 % 256) +
            65536 * (pcmData.length * 2 / 65536 % 256) +
            16777216 * (pcmData.length * 2 / 16777216 % 256)) := rfl
    rw [hparse, u32LE_decode sampleRate hr, u32LE_decode (pcmData.length * 2) hn]

/-- C3 at the specification's example: `createWavBlob [0, 100, -100] 24000`
has byte length 50 = 44 + 2*3 and its header parses back to sample rate
24000 and data-chunk size 6. -/
theorem createWavBlob_roundtrip_witness :
    (createWavBlob [0, 100, -100] 24000).length = 44 + 2 * 3 ∧
      parseWavHeader (createWavBlob [0, 100, -100] 24000) = some (24000, 6) :=
  ⟨(createWavBlob_roundtrip [0, 100, -100] 24000).1,
    (createWavBlob_roundtrip [0, 100, -100] 24000).2 (by decide) (by decide)⟩

/-- Signed 16-bit little-endian value of a byte pair, as an `Int16Array`
element reads it. -/
def int16OfBytes (b0 b1 : Nat) : Int :=
  if b0 + 256 * b1 < 32768 then (b0 + 256 * b1 : Int) else (b0 + 256 * b1 : Int) - 65536

/-- The elements of an `Int16Array` view over a byte buffer: consecutive
little-endian byte pairs. -/
def int16ArrayOf : List Nat → List Int
  | b0 :: b1 :: rest => int16OfBytes b0 b1 :: int16ArrayOf rest
  | _ => []

/-- Model of `decodeAudioData(data, ctx, sampleRate, numChannels)` from the
audio service: `new Int16Array(data.buffer)` throws a `RangeError` when the
byte length is not a multiple of 2 (`none` here); otherwise the bytes are
reinterpreted as 16-bit samples and a buffer with
`frameCount = dataInt16.length / numChannels` frames per channel is built.
The floating-point normalisation by 1/32768 at playback is outside the
model; the 16-bit samples are returned raw. -/
def decodeAudioData (data : List Nat) (numChannels : Nat) : Option (Nat × List Int) :=
  if data.length % 2 ≠ 0 then none
  else some ((int16ArrayOf data).length / numChannels, int16ArrayOf data)

lemma int16ArrayOf_length : ∀ l : List Nat, (int16ArrayOf l).length = l.length / 2
  | [] => rfl
  | [b] => by simp [int16ArrayOf]
  | b0 :: b1 :: rest => by
    simp only [int16ArrayOf, List.length_cons, int16ArrayOf_length rest]
    omega

/-- C10.  `decodeAudioData` reinterprets the byte buffer as 16-bit samples:
for every input of odd byte length the `Int16Array` construction fails
(no buffer is returned), and for every even-length input it succeeds with
`frameCount = byteLength / 2` frames in the mono (`numChannels = 1`)
configuration the service uses. -/
theorem decodeAudioData_parity (data : List Nat) :
    (data.length % 2 = 1 → decodeAudioData data 1 = none) ∧
      (data.length % 2 = 0 →
        decodeAudioData data 1 = some (data.length / 2, int16ArrayOf data)) := by
  constructor
  · intro h
    unfold decodeAudioData
    rw [if_pos (by omega)]
  · intro h
    unfold decodeAudioData
    rw [if_neg (by omega), int16ArrayOf_length]
    simp

/-- C10 at concrete inputs: a 1-byte buffer fails, a 2-byte buffer yields
one frame. -/
theorem decodeAudioData_parity_witness :
    decodeAudioData [7] 1 = none ∧ decodeAudioData [0, 1] 1 = some (1, [256]) :=
  ⟨(decodeAudioData_parity [7]).1 (by decide), by
    rw [(decodeAudioData_parity [0, 1]).2 (by decide)]
    decide⟩

/-- Replaces every maximal run of whitespace by a single space, modelling
the text cleaning `text.replace(/\s+/g, ' ')` of `generateSpeech`.  The
Boolean argument records whether the previous character was whitespace. -/
def collapseWsAux : Bool → List Char → List Char
  | _, [] => []
  | inRun, c :: cs =>
    if isWs c then
      if inRun then collapseWsAux true cs else ' ' :: collapseWsAux true cs
    else c :: collapseWsAux false cs

/-- The replacement `text.replace(/\s+/g, ' ')` applied to the whole text. -/
def collapseWs (l : List Char) : List Char := collapseWsAux false l

/-- The cleaned text `text.replace(/\s+/g, ' ').trim()` that `generateSpeech`
tests before doing anything else. -/
def cleanText (text : List Char) : List Char := jsTrim (collapseWs text)

/-- What a `generateSpeech` call did: short-circuited on blank text
(returning `undefined` with no provider request), returned data, or threw. -/
inductive GSResult where
  | skipped
  | returned
  | threw
deriving DecidableEq

/-- One provider request as observed from outside: its start and completion
timestamps and whether it succeeded. -/
structure Event where
  start : Nat
  finish : Nat
  ok : Bool
deriving DecidableEq

/-- Result of one `generateSpeech` call: what it did, the provider request
it issued (if any), and the client's `lastRequestTime` afterwards. -/
structure GSOut where
  res : GSResult
  event : Option Event
  last : Nat
deriving DecidableEq

/-- Model of `GeminiTTSService.generateSpeech` (the `MIN_GAP` variant of the
service; its `catch` rethrows immediately, so every call performs at most
one provider request).  `last` is the client's `lastRequestTime`, `time` the
`Date.now()` value when the call runs, `dur` how long the request takes and
`ok` whether it yields data.  Blank cleaned text short-circuits with no
request.  Otherwise the call sleeps until `minGap` milliseconds have passed
since `lastRequestTime`, issues the request, and sets `lastRequestTime` to
the response time on success only — a thrown error leaves it unchanged. -/
def generateSpeech (minGap last : Nat) (text : List Char) (time dur : Nat) (ok : Bool) :
    GSOut :=
  if cleanText text = [] then ⟨.skipped, none, last⟩
  else
    if ok then
      ⟨.returned,
        some ⟨if time - last < minGap then time + (minGap - (time - last)) else time,
          (if time - last < minGap then time + (minGap - (time - last)) else time) + dur, true⟩,
        (if time - last < minGap then time + (minGap - (time - last)) else time) + dur⟩
    else
      ⟨.threw,
        some ⟨if time - last < minGap then time + (minGap - (time - last)) else time,
          (if time - last < minGap then time + (minGap - (time - last)) else time) + dur, false⟩,
        last⟩

/-- One call of a trace: its text, the clock value when it runs, the
duration of its request and whether the request succeeds. -/
structure Call where
  text : List Char
  time : Nat
  dur : Nat
  ok : Bool
deriving DecidableEq

/-- Runs a sequence of `generateSpeech` calls through one client instance:
the provider requests issued, in issuance order, and the final
`lastRequestTime`. -/
def runCalls (minGap : Nat) : Nat → List Call → List Event × Nat
  | last, [] => ([], last)
  | last, c :: cs =>
    ((generateSpeech minGap last c.text c.time c.dur c.ok).event.toList ++
        (runCalls minGap (generateSpeech minGap last c.text c.time c.dur c.ok).last cs).1,
      (runCalls minGap (generateSpeech minGap last c.text c.time c.dur c.ok).last cs).2)

/-- Well-formedness of a trace: the calls are issued sequentially, each one
running no earlier than `tmin`, the time at which the previous call ended
(initially the creation time of the client). -/
def seqOK (minGap : Nat) : Nat → Nat → List Call → Bool
  | _, _, [] => true
  | last, tmin, c :: cs =>
    decide (tmin ≤ c.time) &&
      seqOK minGap (generateSpeech minGap last c.text c.time c.dur c.ok).last
        (match (generateSpeech minGap last c.text c.time c.dur c.ok).event with
          | some e => e.finish
          | none => c.time) cs

lemma generateSpeech_event_none (minGap last : Nat) (text : List Char) (time dur : Nat)
    (ok : Bool) (h : (generateSpeech minGap last text time dur ok).event = none) :
    (generateSpeech minGap last text time dur ok).last = last := by
  unfold generateSpeech at h ⊢
  by_cases hc : cleanText text = []
  · rw [if_pos hc]
  · rw [if_neg hc] at h
    cases ok <;> simp at h

lemma generateSpeech_event_some (minGap last : Nat) (text : List Char) (time dur : Nat)
    (ok : Bool) (e : Event)
    (he : (generateSpeech minGap last text time dur ok).event = some e) :
    e.finish = e.start + dur ∧ e.ok = ok ∧ time ≤ e.start ∧
      (last ≤ time → last + minGap ≤ e.start) ∧
      (generateSpeech minGap last text time dur ok).last =
        (if ok then e.finish else last) := by
  unfold generateSpeech at he ⊢
  by_cases hc : cleanText text = []
  · rw [if_pos hc] at he
    simp at he
  · rw [if_neg hc] at he
    rw [if_neg hc]
    cases ok <;> simp at he <;> rw [← he] <;>
      by_cases hg : time - last < minGap <;> simp [hg] <;> omega

lemma runCalls_head_start (minGap : Nat) (calls : List Call) :
    ∀ last tmin, last ≤ tmin → seqOK minGap last tmin calls = true →
      ∀ e, (runCalls minGap last calls).1.head? = some e → last + minGap ≤ e.start := by
  induction calls with
  | nil =>
    intro last tmin _ _ e he
    simp [runCalls] at he
  | cons c cs ih =>
    intro last tmin h0 hwf e he
    simp only [seqOK, Bool.and_eq_true, decide_eq_true_eq] at hwf
    obtain ⟨ht, hrest⟩ := hwf
    simp only [runCalls] at he
    cases hev : (generateSpeech minGap last c.text c.time c.dur c.ok).event with
    | none =>
      rw [hev] at he hrest
      simp only [Option.toList_none, List.nil_append] at he
      have hlast := generateSpeech_event_none minGap last c.text c.time c.dur c.ok hev
      rw [hlast] at he hrest
      have hle : last ≤ c.time := le_trans h0 ht
      exact ih last c.time hle hrest e he
    | some ev =>
      rw [hev] at he hrest
      simp only [Option.toList_some, List.cons_append, List.head?_cons,
        Option.some.injEq] at he
      obtain ⟨hf, hok, htime, hgap, _⟩ :=
        generateSpeech_event_some minGap last c.text c.time c.dur c.ok ev hev
      rw [← he]
      exact hgap (le_trans h0 ht)

lemma runCalls_chain (minGap : Nat) (calls : List Call) :
    ∀ last tmin, last ≤ tmin → seqOK minGap last tmin calls = true →
      List.Chain' (fun a b => a.ok = true → a.start + minGap ≤ b.start)
        (runCalls minGap last calls).1 := by
  induction calls with
  | nil => intro last tmin _ _; simp [runCalls]
  | cons c cs ih =>
    intro last tmin h0 hwf
    simp only [seqOK, Bool.and_eq_true, decide_eq_true_eq] at hwf
    obtain ⟨ht, hrest⟩ := hwf
    simp only [runCalls]
    cases hev : (generateSpeech minGap last c.text c.time c.dur c.ok).event with
    | none =>
      rw [hev] at hrest
      simp only [Option.toList_none, List.nil_append]
      have hlast := generateSpeech_event_none minGap last c.text c.time c.dur c.ok hev
      rw [hlast] at hrest ⊢
      exact ih last c.time (le_trans h0 ht) hrest
    | some ev =>
      rw [hev] at hrest
      simp only [Option.toList_some, List.cons_append]
      obtain ⟨hf, hok, htime, hgap, hlast⟩ :=
        generateSpeech_event_some minGap last c.text c.time c.dur c.ok ev hev
      rw [List.chain'_cons']
      have hle : last ≤ c.time := le_trans h0 ht
      have hlast2 :
          (generateSpeech minGap last c.text c.time c.dur c.ok).last ≤ ev.finish := by
        rw [hlast]
        cases c.ok
        · simp
          omega
        · simp
      constructor
      · intro b hb hbok
        have hhead := runCalls_head_start minGap cs
          (generateSpeech minGap last c.text c.time c.dur c.ok).last ev.finish hlast2
          hrest b hb
        have hstart : ev.start ≤ ev.finish := by omega
        rw [hok] at hbok
        rw [hlast, hbok] at hhead
        simp at hhead
        omega
      · exact ih _ ev.finish hlast2 hrest

/-- C4 (counterexample).  The spacing claim fails across a failed attempt:
`lastRequestTime` is only updated after a successful response, so a request
following a thrown one is gated against the older timestamp.  With
`minGap = 12000` and a fresh client (`lastRequestTime = 0`), a failing call
at t = 20000 and a succeeding call at t = 20200 start 200 ms apart. -/
theorem rateLimiterSpacing_counterexample :
    ¬ (∀ (minGap last tmin : Nat) (calls : List Call), last ≤ tmin →
        seqOK minGap last tmin calls = true →
        List.Chain' (fun a b => a.start + minGap ≤ b.start)
          (runCalls minGap last calls).1) := by
  intro h
  have h2 := h 12000 0 0 [⟨['x'], 20000, 100, false⟩, ⟨['x'], 20200, 100, true⟩]
    (le_refl 0) (by decide)
  rw [show (runCalls 12000 0 [⟨['x'], 20000, 100, false⟩, ⟨['x'], 20200, 100, true⟩]).1
      = [⟨20000, 20100, false⟩, ⟨20200, 20300, true⟩] from by decide] at h2
  have h3 := (List.chain'_cons.mp h2).1
  simp at h3

/-- C4 (amended).  In every well-formed sequence of `generateSpeech` calls
through one client instance, any two consecutive provider requests start at
least `minGap` milliseconds apart provided the earlier of the two succeeded.
After a failed attempt `lastRequestTime` is unchanged, so the next request
is only guaranteed to be `minGap` after the last successful response, not
after the failed request — the counterexample shows the unconditional claim
is false. -/
theorem rateLimiterSpacing_amended (minGap last tmin : Nat) (calls : List Call)
    (h0 : last ≤ tmin) (hwf : seqOK minGap last tmin calls = true) :
    List.Chain' (fun a b => a.ok = true → a.start + minGap ≤ b.start)
      (runCalls minGap last calls).1 :=
  runCalls_chain minGap calls last tmin h0 hwf

/-- C4 (amended) at a concrete trace of two successful calls 20000 ms
apart with `minGap = 12000`. -/
theorem rateLimiterSpacing_amended_witness :
    seqOK 12000 0 0 [⟨['x'], 20000, 100, true⟩, ⟨['x'], 40000, 50, true⟩] = true ∧
      List.Chain' (fun a b => a.ok = true → a.start + 12000 ≤ b.start)
        (runCalls 12000 0 [⟨['x'], 20000, 100, true⟩, ⟨['x'], 40000, 50, true⟩]).1 :=
  ⟨by decide,
    rateLimiterSpacing_amended 12000 0 0 [⟨['x'], 20000, 100, true⟩, ⟨['x'], 40000, 50, true⟩]
      (le_refl 0) (by decide)⟩

/-- The completion timestamp of the most recent successful request of an
event list, or the initial value when none succeeded. -/
def lastFinishOr (init : Nat) : List Event → Nat
  | [] => init
  | e :: es => lastFinishOr (if e.ok then e.finish else init) es

/-- C9 (counterexample).  The claim that the rate-limiter state is mutated
on every request attempt, success or failure, fails: the service only
assigns `lastRequestTime = Date.now()` after receiving data, and the `catch`
rethrows without touching it, so a failing attempt leaves the state
unchanged. -/
theorem lastRequestTime_counterexample :
    ¬ (∀ (minGap last : Nat) (text : List Char) (time dur : Nat) (ok : Bool),
        (generateSpeech minGap last text time dur ok).event.isSome = true →
        (generateSpeech minGap last text time dur ok).last ≠ last) := by
  intro h
  exact h 12000 0 ['x'] 20000 100 false (by decide) (by decide)

/-- C9 (amended).  Across any sequence of calls through one client, the
rate-limiter state `lastRequestTime` always equals the completion timestamp
of the most recent successful request (its initial value when none has
succeeded): it is mutated exactly by successful attempts, is left unchanged
by failed attempts and blank-text calls, and nothing outside the client's
own request path ever writes it. -/
theorem lastRequestTime_amended (minGap last : Nat) (calls : List Call) :
    (runCalls minGap last calls).2 = lastFinishOr last (runCalls minGap last calls).1 := by
  induction calls generalizing last with
  | nil => rfl
  | cons c cs ih =>
    simp only [runCalls]
    cases hev : (generateSpeech minGap last c.text c.time c.dur c.ok).event with
    | none =>
      simp only [Option.toList_none, List.nil_append]
      have hlast := generateSpeech_event_none minGap last c.text c.time c.dur c.ok hev
      rw [hlast, ih last]
    | some ev =>
      simp only [Option.toList_some, List.cons_append, List.nil_append]
      obtain ⟨hf, hok, htime, hgap, hlast⟩ :=
        generateSpeech_event_some minGap last c.text c.time c.dur c.ok ev hev
      show _ = lastFinishOr (if ev.ok = true then ev.finish else last) _
      rw [hok, ← hlast, ih]

/-- All-whitespace inputs collapse to nothing or a single space under
`replace` with the whitespace-run regex. -/
lemma collapseWsAux_true_allWs :
    ∀ l : List Char, (∀ c ∈ l, isWs c = true) → collapseWsAux true l = []
  | [], _ => rfl
  | c :: cs, h => by
    have hc := h c (List.mem_cons_self c cs)
    simp [collapseWsAux, hc,
      collapseWsAux_true_allWs cs (fun x hx => h x (List.mem_cons_of_mem c hx))]

lemma jsTrim_eq_nil_iff (l : List Char) : jsTrim l = [] ↔ ∀ c ∈ l, isWs c = true := by
  unfold jsTrim
  constructor
  · intro h c hc
    have h1 : (l.dropWhile isWs).reverse.dropWhile isWs = [] := by
      rwa [List.reverse_eq_nil_iff] at h
    have h3 : ∀ x ∈ l.dropWhile isWs, isWs x := by
      intro x hx
      exact List.dropWhile_eq_nil_iff.mp h1 x (List.mem_reverse.mpr hx)
    have hsplit := List.takeWhile_append_dropWhile (p := isWs) (l := l)
    rw [← hsplit] at hc
    rcases List.mem_append.mp hc with hm | hm
    · exact List.mem_takeWhile_imp hm
    · exact h3 c hm
  · intro h
    have h1 : l.dropWhile isWs = [] := List.dropWhile_eq_nil_iff.mpr h
    simp [h1]

lemma cleanText_eq_nil_of_jsTrim (text : List Char) (h : jsTrim text = []) :
    cleanText text = [] := by
  have hall := (jsTrim_eq_nil_iff text).mp h
  unfold cleanText collapseWs
  cases text with
  | nil => rfl
  | cons c cs =>
    have hc := hall c (List.mem_cons_self c cs)
    have hcs := collapseWsAux_true_allWs cs (fun x hx => hall x (List.mem_cons_of_mem c hx))
    simp [collapseWsAux, hc, hcs]
    decide

/-- C6.  A `generateSpeech` call whose text is empty or whitespace-only
after trimming is a no-op success: it returns `undefined`, makes no
provider request, throws no error, and leaves the rate-limiter state
unchanged. -/
theorem generateSpeech_empty_noop (minGap last : Nat) (text : List Char)
    (time dur : Nat) (ok : Bool) (h : jsTrim text = []) :
    generateSpeech minGap last text time dur ok = ⟨.skipped, none, last⟩ := by
  unfold generateSpeech
  rw [if_pos (cleanText_eq_nil_of_jsTrim text h)]

/-- C6 at a concrete whitespace-only input. -/
theorem generateSpeech_empty_noop_witness :
    jsTrim [' ', '\n'] = [] ∧
      generateSpeech 12000 0 [' ', '\n'] 500 10 true = ⟨.skipped, none, 0⟩ :=
  ⟨by decide, generateSpeech_empty_noop 12000 0 [' ', '\n'] 500 10 true (by decide)⟩

/-- Outcome of one provider attempt inside the retry loop: data returned,
a quota (429) error, or any other error. -/
inductive AttemptResult where
  | ok
  | err429
  | errOther
deriving DecidableEq

/-- How the retry loop ended: returned data, threw, or fell out of the loop
(returning `undefined`). -/
inductive LoopExit where
  | success
  | thrown
  | exhausted
deriving DecidableEq

/-- Retry loop of the `retries = 5` variant of `generateSpeech`:
`for (let i = 0; i < retries; i++)`; a 429 error with `i < retries - 1`
sleeps `Math.pow(2, i) * 5000` milliseconds and continues, any other error
— or a 429 on the last attempt — is thrown, and data returns at once.
Returns the backoff waits performed, in order, and how the loop ended.
The second argument is the attempt index `i`; the third is `retries - i`,
which makes the recursion structural (`backoffWaits5` instantiates it). -/
def loop5 (retries : Nat) (results : Nat → AttemptResult) : Nat → Nat → List Nat × LoopExit
  | _, 0 => ([], .exhausted)
  | i, fuel + 1 =>
    match results i with
    | .ok => ([], .success)
    | .err429 =>
      if i < retries - 1 then
        ((2 ^ i * 5000) :: (loop5 retries results (i + 1) fuel).1,
          (loop5 retries results (i + 1) fuel).2)
      else ([], .thrown)
    | .errOther => ([], .thrown)

/-- The backoff waits of one run of the `retries = 5` variant, given the
outcome of each attempt. -/
def backoffWaits5 (retries : Nat) (results : Nat → AttemptResult) : List Nat × LoopExit :=
  loop5 retries results 0 retries

/-- Retry loop of the `retries = 1` variant of `generateSpeech`:
`for (let i = 0; i <= retries; i++)`; a 429 error with `i < retries` sleeps
a fixed 10000 milliseconds and continues; any other error is thrown. -/
def loop1 (retries : Nat) (results : Nat → AttemptResult) : Nat → Nat → List Nat × LoopExit
  | _, 0 => ([], .exhausted)
  | i, fuel + 1 =>
    match results i with
    | .ok => ([], .success)
    | .err429 =>
      if i < retries then
        (10000 :: (loop1 retries results (i + 1) fuel).1,
          (loop1 retries results (i + 1) fuel).2)
      else ([], .thrown)
    | .errOther => ([], .thrown)

/-- The backoff waits of one run of the `retries = 1` variant. -/
def backoffWaits1 (retries : Nat) (results : Nat → AttemptResult) : List Nat × LoopExit :=
  loop1 retries results 0 (retries + 1)

lemma loop5_waits (retries : Nat) (results : Nat → AttemptResult) :
    ∀ k i fuel, (∀ j, i ≤ j → j ≤ i + k → results j = .err429) →
      i + k < retries - 1 → i + fuel = retries →
      (loop5 retries results i fuel).1.take (k + 1)
        = (List.range' i (k + 1)).map (fun j => 2 ^ j * 5000) := by
  intro k
  induction k with
  | zero =>
    intro i fuel h hk hfuel
    cases fuel with
    | zero => omega
    | succ f =>
      simp only [loop5, h i (le_refl i) (by omega)]
      rw [if_pos (by omega)]
      simp [List.range']
  | succ k ih =>
    intro i fuel h hk hfuel
    cases fuel with
    | zero => omega
    | succ f =>
      simp only [loop5, h i (le_refl i) (by omega)]
      rw [if_pos (by omega)]
      rw [show List.range' i (k + 1 + 1) = i :: List.range' (i + 1) (k + 1) from rfl]
      simp only [List.take_succ_cons, List.map_cons]
      rw [ih (i + 1) f (fun j hj1 hj2 => h j (by omega) (by omega)) (by omega) (by omega)]

/-- C5.  In the exponential-backoff variant of `generateSpeech`
(`retries = 5` by default, modelled for any `retries`), when attempts
`0..k` are all throttled with a 429 and `k` is below the retry bound, the
backoff waits inserted are exactly `base * 2^i` for `i = 0..k` with the
fixed base 5000 ms, and they strictly increase with `i`.  In the
`retries = 1` variant the loop performs at most one wait of 10000 ms
= `10000 * 2^0`, its fixed base, so the law holds there trivially. -/
theorem backoffGrowth (retries k : Nat) (results : Nat → AttemptResult)
    (h429 : ∀ i ≤ k, results i = .err429) (hk : k < retries - 1) :
    (backoffWaits5 retries results).1.take (k + 1)
        = (List.range (k + 1)).map (fun i => 2 ^ i * 5000) ∧
      List.Pairwise (· < ·) ((backoffWaits5 retries results).1.take (k + 1)) ∧
      ∀ res : Nat → AttemptResult,
        (backoffWaits1 1 res).1 = [] ∨ (backoffWaits1 1 res).1 = [10000] := by
  have htake : (backoffWaits5 retries results).1.take (k + 1)
      = (List.range' 0 (k + 1)).map (fun j => 2 ^ j * 5000) := by
    unfold backoffWaits5
    exact loop5_waits retries results k 0 retries
      (fun j hj1 hj2 => h429 j (by omega)) (by omega) (by omega)
  refine ⟨by rw [htake, List.range_eq_range'], ?_, ?_⟩
  · rw [htake]
    refine List.Pairwise.map (R := (· < ·)) _ (fun a b hab => ?_) ?_
    · have hpow : 2 ^ a < 2 ^ b := Nat.pow_lt_pow_right (by norm_num) hab
      have h5 : (0 : Nat) < 5000 := by norm_num
      exact Nat.mul_lt_mul_of_lt_of_le hpow (le_refl 5000) h5
    · rw [← List.range_eq_range']
      exact List.pairwise_lt_range (k + 1)
  · intro res
    unfold backoffWaits1
    cases h0 : res 0 with
    | ok => left; simp [loop1, h0]
    | errOther => left; simp [loop1, h0]
    | err429 =>
      cases h1 : res 1 with
      | ok => right; simp [loop1, h0, h1]
      | errOther => right; simp [loop1, h0, h1]
      | err429 => right; simp [loop1, h0, h1]

/-- C5 at a concrete run: four consecutive 429 attempts with `retries = 5`
produce the waits 5000, 10000, 20000, 40000. -/
theorem backoffGrowth_witness :
    (∀ i ≤ 3, (fun _ => AttemptResult.err429) i = .err429) ∧ 3 < 5 - 1 ∧
      (backoffWaits5 5 (fun _ => .err429)).1.take 4 = [5000, 10000, 20000, 40000] :=
  ⟨fun _ _ => rfl, by decide, by
    rw [(backoffGrowth 5 3 (fun _ => .err429) (fun _ _ => rfl) (by decide)).1]
    decide⟩

/-- The error categories the playback sequencer surfaces through
`setError`: the quota message shown on a 429 and the connection message
shown otherwise (distinct Catalan strings in the source). -/
inductive PlaybackErr where
  | quota
  | connection
deriving DecidableEq

/-- The playback state of the reader relevant to the sequencer: the
`playback` flags, the waiting-for-quota flag, the surfaced error, and
whether an audio source is currently active (`currentSourceRef` holding a
playing source). -/
structure PlayerState where
  isPlaying : Bool
  isPaused : Bool
  isWaitingQuota : Bool
  currentSentenceIndex : Nat
  errMsg : Option PlaybackErr
  sourceActive : Bool
deriving DecidableEq

/-- Model of `stopAudio` from the reader: stops and releases the current
audio source and clears the playing, paused and waiting-quota flags.  It
does not touch the surfaced error. -/
def stopAudio (st : PlayerState) : PlayerState :=
  { st with
    sourceActive := false,
    isPlaying := false,
    isPaused := false,
    isWaitingQuota := false }

/-- Outcome of synthesising one chunk inside `playNextChunk`: audio data
returned, `undefined` returned (blank chunk), or an error with the given
message thrown. -/
inductive SynthOutcome where
  | success
  | successNoData
  | failure (msg : List Char)

/-- The test `err?.message?.includes('429')` of the playback catch
handler: the message contains the substring 429. -/
def msgHas429 : List Char → Bool
  | [] => false
  | c :: cs => List.isPrefixOf ['4', '2', '9'] (c :: cs) || msgHas429 cs

/-- Model of one invocation of `playNextChunk(chunks, index)` from the
reader: past the end it stops; otherwise it marks the chunk as current and
playing, clears the error and the waiting flag, then on data starts a new
source, and in the catch handler either enters the waiting-quota state
(messages containing 429) or surfaces a connection error and stops. -/
def playNextChunk (chunks : List (List Char)) (index : Nat) (out : SynthOutcome)
    (st : PlayerState) : PlayerState :=
  if chunks.length ≤ index then stopAudio st
  else
    match out with
    | .success =>
      { st with
        currentSentenceIndex := index,
        isPlaying := true,
        errMsg := none,
        isWaitingQuota := false,
        sourceActive := true }
    | .successNoData =>
      { st with
        currentSentenceIndex := index,
        isPlaying := true,
        errMsg := none,
        isWaitingQuota := false }
    | .failure msg =>
      if msgHas429 msg then
        { st with
          currentSentenceIndex := index,
          isPlaying := true,
          isWaitingQuota := true,
          errMsg := some .quota }
      else
        stopAudio { st with
          currentSentenceIndex := index,
          isPlaying := true,
          isWaitingQuota := false,
          errMsg := some .connection }

/-- C7 (counterexample).  The claim that a rate-limit failure sends the
sequencer to the STOPPED state fails: on a message containing 429 the catch
handler only sets the waiting-quota flag and the error — it does not call
`stopAudio` — so `isPlaying` remains true. -/
theorem playNextChunk_stop_counterexample :
    ¬ ((playNextChunk [['x']] 0 (.failure ['4', '2', '9'])
          ⟨true, false, false, 0, none, false⟩).isPlaying = false ∧
        (playNextChunk [['x']] 0 (.failure ['4', '2', '9'])
          ⟨true, false, false, 0, none, false⟩).sourceActive = false ∧
        (playNextChunk [['x']] 0 (.failure ['4', '2', '9'])
          ⟨true, false, false, 0, none, false⟩).errMsg = some .quota) := by
  decide

/-- C7 (amended).  When synthesis of a chunk in range fails: if the error
message signals the quota (contains 429), the sequencer enters the
waiting-quota state — the quota condition is surfaced via the error and the
waiting flag, no new source is started, and the chunk chain is not
continued — but it does not transition to STOPPED (`isPlaying` stays true
and no `stopAudio` runs); any other synthesis error stops the sequence
(`stopAudio`: no source active, playback cleared) and surfaces a connection
error. -/
theorem playNextChunk_error_amended (chunks : List (List Char)) (index : Nat)
    (msg : List Char) (st : PlayerState) (h : index < chunks.length) :
    (msgHas429 msg = true →
        (playNextChunk chunks index (.failure msg) st).isWaitingQuota = true ∧
        (playNextChunk chunks index (.failure msg) st).errMsg = some .quota ∧
        (playNextChunk chunks index (.failure msg) st).isPlaying = true ∧
        (playNextChunk chunks index (.failure msg) st).sourceActive = st.sourceActive) ∧
      (msgHas429 msg = false →
        (playNextChunk chunks index (.failure msg) st).isPlaying = false ∧
        (playNextChunk chunks index (.failure msg) st).sourceActive = false ∧
        (playNextChunk chunks index (.failure msg) st).isPaused = false ∧
        (playNextChunk chunks index (.failure msg) st).errMsg = some .connection) := by
  unfold playNextChunk
  rw [if_neg (by omega)]
  constructor
  · intro hm
    simp [hm]
  · intro hm
    simp [hm, stopAudio]

/-- C7 (amended) at a concrete quota failure while playing chunk 0. -/
theorem playNextChunk_error_amended_witness :
    (0 < ([['x']] : List (List Char)).length) ∧ msgHas429 ['4', '2', '9'] = true ∧
      ((playNextChunk [['x']] 0 (.failure ['4', '2', '9'])
          ⟨true, false, false, 0, none, false⟩).isWaitingQuota = true ∧
        (playNextChunk [['x']] 0 (.failure ['4', '2', '9'])
          ⟨true, false, false, 0, none, false⟩).errMsg = some .quota ∧
        (playNextChunk [['x']] 0 (.failure ['4', '2', '9'])
          ⟨true, false, false, 0, none, false⟩).isPlaying = true ∧
        (playNextChunk [['x']] 0 (.failure ['4', '2', '9'])
          ⟨true, false, false, 0, none, false⟩).sourceActive = false) :=
  ⟨by decide, by decide,
    (playNextChunk_error_amended [['x']] 0 ['4', '2', '9']
      ⟨true, false, false, 0, none, false⟩ (by decide)).1 (by decide)⟩

/-- Outcome of synthesising one chunk during an export run: decoded PCM
samples, `undefined` (blank chunk, skipped), a quota (429) failure, or any
other failure. -/
inductive ChunkOutcome where
  | ok (pcm : List Int)
  | okNoData
  | fail429
  | failOther
deriving DecidableEq

/-- The two error categories `downloadChapterAudio` distinguishes when it
surfaces a failure: the quota message (from the `QUOTA_EXCEEDED` rethrow)
and the generic one. -/
inductive ExportErr where
  | quota
  | generic
deriving DecidableEq

/-- Observable result of an export run: the produced WAV file bytes if any,
the surfaced error if any, and the final export-progress state (cleared in
the `finally` block). -/
structure ExportResult where
  file : Option (List Nat)
  errMsg : Option ExportErr
  progress : Option (Nat × Nat)
deriving DecidableEq

/-- The chunk loop of `downloadChapterAudio`: accumulates the decoded PCM
blocks of successful chunks in order; a 429 failure aborts the run with the
quota marker (the `throw new Error("QUOTA_EXCEEDED")`), any other failure
aborts it generically.  The second argument is the chunk index, the third
the number of chunks left, making the recursion structural. -/
def exportLoop (outcomes : Nat → ChunkOutcome) :
    Nat → Nat → List (List Int) → Except ExportErr (List (List Int))
  | _, 0, acc => .ok acc
  | i, n + 1, acc =>
    match outcomes i with
    | .ok pcm => exportLoop outcomes (i + 1) n (acc ++ [pcm])
    | .okNoData => exportLoop outcomes (i + 1) n acc
    | .fail429 => .error .quota
    | .failOther => .error .generic

/-- Model of `downloadChapterAudio` from the reader: chunk the chapter text
with `chunkText(text, 5000)`, return silently when there are no chunks,
otherwise synthesise every chunk strictly in order; only when all succeed
are the accumulated samples concatenated, encoded with `createWavBlob` at
24000 Hz and emitted; on any failure no file is produced and the error is
surfaced with its category.  The progress state is cleared in `finally` on
every path. -/
def downloadChapterAudio (text : List Char) (outcomes : Nat → ChunkOutcome) :
    ExportResult :=
  if (chunkText text 5000).length = 0 then ⟨none, none, none⟩
  else
    match exportLoop outcomes 0 (chunkText text 5000).length [] with
    | .error e => ⟨none, some e, none⟩
    | .ok pcms => ⟨some (createWavBlob pcms.flatten 24000), none, none⟩

lemma exportLoop_fails (outcomes : Nat → ChunkOutcome) :
    ∀ n i acc j, j < n →
      (outcomes (i + j) = .fail429 ∨ outcomes (i + j) = .failOther) →
      (∀ m < j, outcomes (i + m) ≠ .fail429 ∧ outcomes (i + m) ≠ .failOther) →
      exportLoop outcomes i n acc =
        .error (if outcomes (i + j) = .fail429 then .quota else .generic) := by
  intro n
  induction n with
  | zero => intro i acc j hj; omega
  | succ n ih =>
    intro i acc j hj hfail hpre
    cases j with
    | zero =>
      simp only [Nat.add_zero] at hfail ⊢
      rcases hfail with h | h
      · simp [exportLoop, h]
      · have hne : outcomes i ≠ .fail429 := by simp [h]
        simp [exportLoop, h, hne]
    | succ j =>
      have h0 := hpre 0 (Nat.succ_pos j)
      simp only [Nat.add_zero] at h0
      have hshift : i + 1 + j = i + (j + 1) := by omega
      cases ho : outcomes i with
      | ok pcm =>
        simp only [exportLoop, ho]
        rw [show outcomes (i + (j + 1)) = outcomes (i + 1 + j) from by rw [hshift]] at hfail ⊢
        exact ih (i + 1) (acc ++ [pcm]) j (by omega) hfail
          (fun m hm => by rw [show i + 1 + m = i + (m + 1) from by omega]
                          exact hpre (m + 1) (by omega))
      | okNoData =>
        simp only [exportLoop, ho]
        rw [show outcomes (i + (j + 1)) = outcomes (i + 1 + j) from by rw [hshift]] at hfail ⊢
        exact ih (i + 1) acc j (by omega) hfail
          (fun m hm => by rw [show i + 1 + m = i + (m + 1) from by omega]
                          exact hpre (m + 1) (by omega))
      | fail429 => exact absurd ho h0.1
      | failOther => exact absurd ho h0.2

/-- C8.  If synthesis of chunk `i` of an export run fails irrecoverably —
a quota failure or any other failure — while all earlier chunks succeeded,
the export produces no output file at all (no partial file covering the
earlier chunks), the progress state ends cleared, and the surfaced error
distinguishes the quota condition from any other failure. -/
theorem exportAtomicity (text : List Char) (outcomes : Nat → ChunkOutcome) (i : Nat)
    (hi : i < (chunkText text 5000).length)
    (hfail : outcomes i = .fail429 ∨ outcomes i = .failOther)
    (hpre : ∀ m < i, outcomes m ≠ .fail429 ∧ outcomes m ≠ .failOther) :
    (downloadChapterAudio text outcomes).file = none ∧
      (downloadChapterAudio text outcomes).progress = none ∧
      (downloadChapterAudio text outcomes).errMsg =
        some (if outcomes i = .fail429 then .quota else .generic) := by
  unfold downloadChapterAudio
  rw [if_neg (by omega)]
  have h := exportLoop_fails outcomes (chunkText text 5000).length 0 [] i hi
    (by simpa using hfail) (by simpa using hpre)
  rw [h]
  simp

/-- C8 at a concrete input: one chunk whose synthesis hits the quota. -/
theorem exportAtomicity_witness :
    (0 < (chunkText ['x'] 5000).length) ∧
      ((downloadChapterAudio ['x'] (fun _ => .fail429)).file = none ∧
        (downloadChapterAudio ['x'] (fun _ => .fail429)).progress = none ∧
        (downloadChapterAudio ['x'] (fun _ => .fail429)).errMsg = some .quota) :=
  ⟨by decide, by
    have h := exportAtomicity ['x'] (fun _ => .fail429) 0 (by decide) (Or.inl rfl)
      (fun m hm => absurd hm (Nat.not_lt_zero m))
    simpa using h⟩

end EpubReader
